import Mathlib

/-!
Verification of the step-execution/workflow engine of the
cdk-github-bug-reproducer repository.

This file shallowly embeds the parts of the code the behavioural claims
are about:
 - the context-memory store (lambda/ecs_task/agents/context_memory.py),
 - the step engine and variable interpolation
   (lambda/ecs_task/issue_processor/process_definitions.py),
 - the conversational agent loop
   (lambda/ecs_task/issue_processor/converse_agent.py),
and proves or refutes each claim against the embedding.

Python strings are modelled as lists of characters.  JSON numbers are
modelled as integers (floating point is out of scope for every claim).
Recursive scanners are written with an explicit fuel argument equal to
the input length so that every definition is structural and evaluates
inside the kernel.
-/

namespace BugRepro

/-- Characters of a string literal, the form all Python strings take here. -/
def strL (s : String) : List Char := s.data

/-- The absent-entry sentinel returned by the memory store
(context_memory.py, read_memory_entry, line 63). -/
def noEntry : List Char := strL (r"No entry found for the given key.")

/-- The DONE marker value written by Step.execute (process_definitions.py
line 124). -/
def doneText : List Char := strL (r"done")

/-- Generic association-list lookup (Python dict access / key test). -/
def lookupA {α : Type} : List (List Char × α) → List Char → Option α
  | [], _ => none
  | (k, v) :: m, key => if k = key then some v else lookupA m key

/-- Python dict upsert: the new binding shadows (replaces) any old one. -/
def insertA {α : Type} : List (List Char × α) → List Char → α → List (List Char × α)
  | [], key, v => [(key, v)]
  | (k, w) :: m, key, v => if k = key then (key, v) :: m else (k, w) :: insertA m key v

/-- Prefix test on character lists (drives the replace scanner). -/
def isPrefixL : List Char → List Char → Bool
  | [], _ => true
  | _ :: _, [] => false
  | a :: as, b :: bs => a == b && isPrefixL as bs

/-- Python str.replace, fueled: replaces every non-overlapping occurrence
of pat left to right.  For the empty pattern the text is returned
unchanged; the engine only substitutes nonempty dollar-brace patterns. -/
def strReplaceF (pat rep : List Char) : Nat → List Char → List Char
  | 0, s => s
  | _ + 1, [] => []
  | f + 1, c :: cs =>
    if pat ≠ [] ∧ isPrefixL pat (c :: cs) = true then
      rep ++ strReplaceF pat rep f (List.drop pat.length (c :: cs))
    else
      c :: strReplaceF pat rep f cs

/-- Python str.replace with the fuel fixed at the input length, which the
scanner never exhausts (each step consumes at least one character). -/
def strReplace (s pat rep : List Char) : List Char :=
  strReplaceF pat rep s.length s

/-- The regex scan re.findall over dollar-brace variable references
(process_definitions.py line 68), fueled.  A match is a dollar
immediately followed by an open brace, one or more non-close-brace
characters, and a close brace; scanning resumes after the match. -/
def findVarsF : Nat → List Char → List (List Char)
  | 0, _ => []
  | _ + 1, [] => []
  | f + 1, '$' :: '{' :: rest =>
    match rest.dropWhile (fun c => c ≠ '}') with
    | '}' :: r2 =>
      if rest.takeWhile (fun c => c ≠ '}') = [] then findVarsF f ('{' :: rest)
      else rest.takeWhile (fun c => c ≠ '}') :: findVarsF f r2
    | _ => findVarsF f ('{' :: rest)
  | f + 1, _ :: cs => findVarsF f cs

/-- All dollar-brace variable references of a prompt, in scan order. -/
def findVars (s : List Char) : List (List Char) := findVarsF s.length s

/-- The literal reference text for a variable name, as rebuilt by the
f-string at process_definitions.py lines 74 and 84. -/
def varRef (v : List Char) : List Char := '$' :: '{' :: (v ++ ['}'])

/-! ## JSON values and their serialization

The memory store persists entries with json.dumps and reads them back
with json.loads (context_memory.py lines 27-28, 60).  The model keeps
Python's default escaping for quote, backslash and control characters;
non-ASCII characters are kept literal and separators are compact (the
source's json.loads accepts both spellings, so the round-trip content
of the claims is unchanged). -/

/-- JSON-serializable values.  Numbers are integers; objects are ordered
key-value lists exactly as Python dicts are ordered. -/
inductive Json where
  | null : Json
  | bool : Bool → Json
  | num : Int → Json
  | str : List Char → Json
  | arr : List Json → Json
  | obj : List (List Char × Json) → Json

/-- Decimal digits of a natural number, fueled (fuel n + 1 always
suffices: the digit count of n is at most n + 1). -/
def natDigsGo : Nat → Nat → List Char
  | 0, _ => []
  | f + 1, n =>
    if n < 10 then [Nat.digitChar n]
    else natDigsGo f (n / 10) ++ [Nat.digitChar (n % 10)]

/-- Decimal digits of a natural number, most significant first. -/
def natDigs (n : Nat) : List Char := natDigsGo (n + 1) n

/-- json.dumps of an integer. -/
def intDigs : Int → List Char
  | Int.ofNat m => natDigs m
  | Int.negSucc m => '-' :: natDigs (m + 1)

/-- json.dumps escaping of one string character. -/
def escapeChar (c : Char) : List Char :=
  if c = '"' then ['\\', '"']
  else if c = '\\' then ['\\', '\\']
  else if c = '\n' then ['\\', 'n']
  else if c = '\t' then ['\\', 't']
  else if c = '\r' then ['\\', 'r']
  else if c.toNat = 8 then ['\\', 'b']
  else if c.toNat = 12 then ['\\', 'f']
  else if c.toNat < 32 then
    ['\\', 'u', '0', '0', Nat.digitChar (c.toNat / 16), Nat.digitChar (c.toNat % 16)]
  else [c]

/-- json.dumps escaping of a string body. -/
def escapeStr (s : List Char) : List Char := (s.map escapeChar).flatten

/-- json.dumps of a string, quotes included. -/
def dumpStr (s : List Char) : List Char := '"' :: (escapeStr s ++ ['"'])

mutual

/-- json.dumps: the file content the memory store writes for a value
(context_memory.py lines 27-28). -/
def dumps : Json → List Char
  | .null => strL (r"null")
  | .bool true => strL (r"true")
  | .bool false => strL (r"false")
  | .num n => intDigs n
  | .str s => dumpStr s
  | .arr [] => ['[', ']']
  | .arr (x :: xs) => '[' :: (dumps x ++ dumpsTail xs)
  | .obj [] => ['{', '}']
  | .obj ((k, v) :: kvs) => '{' :: (dumpStr k ++ ':' :: (dumps v ++ dumpsObjTail kvs))

/-- Continuation of an array dump after its first element. -/
def dumpsTail : List Json → List Char
  | [] => [']']
  | x :: xs => ',' :: (dumps x ++ dumpsTail xs)

/-- Continuation of an object dump after its first member. -/
def dumpsObjTail : List (List Char × Json) → List Char
  | [] => ['}']
  | (k, v) :: kvs => ',' :: (dumpStr k ++ ':' :: (dumps v ++ dumpsObjTail kvs))

end

/-! ## The MCP content view of memory reads

The engine calls the memory tools through an MCP client; a tool result
arrives as a CallToolResult with a list of content items, of which the
engine only consumes the optional text field.  The MCP layer carries a
string result verbatim as one text item, spreads a list result over one
item per element, turns None into an empty content list, and serializes
anything else. -/

/-- The text the MCP layer puts in one content item for one value. -/
def itemText : Json → List Char
  | .str s => s
  | v => dumps v

/-- The content-item texts of a CallToolResult for a tool returning v. -/
def wrapResult : Json → List (Option (List Char))
  | .str s => [some s]
  | .arr xs => xs.map (fun x => some (itemText x))
  | .null => []
  | v => [some (itemText v)]

/-- The memory contents as the step engine observes them through the
context-memory tool: an association list from entry key to stored value. -/
abbrev Mem := List (List Char × Json)

/-- The value read_memory_entry answers for a key: the stored value, or
the absent sentinel string (context_memory.py lines 48-63, cache view). -/
def readEntry (m : Mem) (key : List Char) : Json :=
  (lookupA m key).getD (Json.str noEntry)

/-- Content items the engine sees for a read_memory_entry tool call. -/
def readContent (m : Mem) (key : List Char) : List (Option (List Char)) :=
  wrapResult (readEntry m key)

/-! ## Step engine -/

/-- Observable effects of one step execution, in order. -/
inductive Effect where
  | readMem : List Char → Effect
  | writeMem : List Char → Json → Effect
  | runActual : Effect

/-- Step.get_id (process_definitions.py lines 146-148): the
parent-qualified id; the empty parent id plays the role of None. -/
def getId (stepId parentId : List Char) : List Char :=
  (if parentId ≠ [] then parentId ++ strL (r"__") else []) ++ stepId

/-- The test at process_definitions.py line 117: the content list is
nonempty and its first item's text equals s. -/
def firstTextIs (content : List (Option (List Char))) (s : List Char) : Bool :=
  match content with
  | some t :: _ => t == s
  | _ => false

/-- Step.execute (process_definitions.py lines 109-125), instrumented
with the effects it performs.  The variant-specific actual_execute is a
parameter transforming memory and reporting its own effects. -/
def stepExecute (skippable : Bool) (stepId parentId : List Char)
    (actual : Mem → Mem × List Effect) (m : Mem) : Mem × List Effect :=
  let key := getId stepId parentId ++ strL (r"_status")
  if skippable && firstTextIs (readContent m key) doneText then
    (m, [Effect.readMem key])
  else
    let r := actual m
    (insertA r.1 key (Json.str doneText),
      Effect.readMem key :: Effect.runActual :: (r.2 ++ [Effect.writeMem key (Json.str doneText)]))

/-- The presence test used at process_definitions.py lines 286 and 311:
content nonempty, first text present and not the absent sentinel. -/
def goodContent (content : List (Option (List Char))) : Bool :=
  match content with
  | some t :: _ => t != noEntry
  | _ => false

/-- The first present text of a content list (content zero's text). -/
def firstText (content : List (Option (List Char))) : List Char :=
  match content with
  | some t :: _ => t
  | _ => []

/-- ForEach._get_expression_list (process_definitions.py lines 270-315)
for a ForEach with no list-producing callable, instrumented with how
many times the agent-driven computation path ran.  The agent round trip
is a parameter transforming memory (the prompt instructs the agent to
store the list under the key and do nothing else); raising is modelled
with Except. -/
def getExpressionList (agentRun : Mem → Mem) (m : Mem) (qid : List Char) :
    Except (List Char) (List (Option (List Char))) × Mem × Nat :=
  let key := qid ++ strL (r"_expression_list")
  if goodContent (readContent m key) then
    (Except.ok (readContent m key), m, 0)
  else
    let m1 := agentRun m
    if goodContent (readContent m1 key) then
      (Except.ok (readContent m1 key), m1, 1)
    else
      (Except.error (strL (r"Failed to calculate expression_list")), m1, 1)

/-- process_context_memory_return_value (process_definitions.py lines
41-52): None for an empty, text-less or sentinel first item, else the
newline join of all present texts. -/
def processContextMemoryReturnValue (content : List (Option (List Char))) :
    Option (List Char) :=
  match content with
  | [] => none
  | none :: _ => none
  | some t :: _ =>
    if t == noEntry then none
    else some (List.intercalate ['\n'] (content.filterMap id))

/-! ## Variable interpolation -/

/-- State threaded through the interpolation loop: the current prompt,
the keys read from the memory store, the variables that produced the
missing-value warning, and the variables whose lookup raised (the
exception is caught and logged; process_definitions.py lines 88-89). -/
structure InterpState where
  prompt : List Char
  reads : List (List Char)
  warns : List (List Char)
  errs : List (List Char)

/-- One iteration of the loop in replace_context_variables
(process_definitions.py lines 71-89).  The context-override map is
consulted first; only on a miss is the memory tool called, and a raise
from that call is caught.  readFn models the tool call. -/
def processVar (ctx : List (List Char × List Char))
    (readFn : List Char → Except (List Char) (List (Option (List Char))))
    (st : InterpState) (v : List Char) : InterpState :=
  match lookupA ctx v with
  | some w => ⟨strReplace st.prompt (varRef v) w, st.reads, st.warns, st.errs⟩
  | none =>
    match readFn v with
    | Except.error _ => ⟨st.prompt, st.reads ++ [v], st.warns, st.errs ++ [v]⟩
    | Except.ok content =>
      if goodContent content then
        ⟨strReplace st.prompt (varRef v) (firstText content),
          st.reads ++ [v], st.warns, st.errs⟩
      else
        ⟨st.prompt, st.reads ++ [v], st.warns ++ [v], st.errs⟩

/-- replace_context_variables (process_definitions.py lines 55-91),
instrumented.  The scan for variable references happens exactly once,
on the original prompt; the loop then processes each found variable in
order.  The function is total: every fault path is internal. -/
def replaceContextVariables (prompt : List Char)
    (ctx : List (List Char × List Char))
    (readFn : List Char → Except (List Char) (List (Option (List Char)))) :
    InterpState :=
  (findVars prompt).foldl (processVar ctx readFn) ⟨prompt, [], [], []⟩

/-! ## The conversational agent loop

converse_agent.py.  The Bedrock provider is modelled as a script of
outcomes consumed in order by the converse call; the retry loop in
invoke (lines 115-124) eats transient faults off the script.  The
recursion invoke -> _handle_response -> invoke is written as one fueled
function with _handle_response's branches inlined (the two Python
methods form a single loop; comments tie each branch to its lines). -/

/-- A Python exception as the agent's caller observes it. -/
inductive PyErr where
  | valueError : List Char → PyErr
  | otherError : List Char → PyErr
  | modelExhausted : PyErr

/-- The message text of an exception (Python str(e)).  The
modelExhausted constructor is a modelling artifact: it marks a finite
provider script or fuel running out, where the real loop would block. -/
def pyMsg : PyErr → List Char
  | PyErr.valueError m => m
  | PyErr.otherError m => m
  | PyErr.modelExhausted => strL (r"model call script exhausted")

/-- One content item of an assistant response as the agent inspects it
(_handle_response reads text, toolUse and reasoningContent keys). -/
inductive RContent where
  | text : List Char → RContent
  | toolUse : List Char → List Char → Json → RContent
  | reasoning : List Char → RContent

/-- A completed converse response: its stop reason string and content. -/
structure ModelResponse where
  stopReason : List Char
  content : List RContent

/-- One scripted outcome of a converse call: a transient throttling or
model-timeout fault (the two exception types caught at lines 119-124),
any other fault (re-raised by _get_converse_response), or a response. -/
inductive ModelOutcome where
  | throttle : ModelOutcome
  | modelTimeout : ModelOutcome
  | fatal : List Char → ModelOutcome
  | ok : ModelResponse → ModelOutcome

/-- One content item of a user turn: the initial prompt text, a tool
result fed back to the model, or the captured unknown-tool error
(the toolUse branch at lines 227-230 appends toolResult or Error). -/
inductive UContent where
  | text : List Char → UContent
  | toolResult : Json → UContent
  | toolError : List Char → UContent

/-- A transcript entry (self.messages). -/
inductive Message where
  | user : List UContent → Message
  | assistant : ModelResponse → Message

/-- The agent state an invoke call threads: the transcript so far and
the remaining provider script. -/
structure AgentState where
  messages : List Message
  script : List ModelOutcome

/-- The while-True retry loop around _get_converse_response
(converse_agent.py lines 115-124): a ThrottlingException or a
ModelTimeoutException is logged, a fixed 5-second sleep happens, and
the very same call is retried with no attempt cap; any other exception
propagates; a response breaks the loop.  Returns the response, the
remaining script, and how many fixed-delay sleeps were performed. -/
def converseRetry : List ModelOutcome → Except PyErr (ModelResponse × List ModelOutcome × Nat)
  | [] => Except.error PyErr.modelExhausted
  | ModelOutcome.throttle :: rest =>
    match converseRetry rest with
    | Except.ok (resp, s, n) => Except.ok (resp, s, n + 1)
    | Except.error e => Except.error e
  | ModelOutcome.modelTimeout :: rest =>
    match converseRetry rest with
    | Except.ok (resp, s, n) => Except.ok (resp, s, n + 1)
    | Except.error e => Except.error e
  | ModelOutcome.fatal msg :: _ => Except.error (PyErr.otherError msg)
  | ModelOutcome.ok resp :: rest => Except.ok (resp, rest, 0)

/-- Modelled from the spec: ConverseToolManager.execute_tool, whose
source file (converse_tools.py) is not among the repository files; only
its caller is.  Per section 4.2 of the spec an unknown tool name is a
caller error: the manager raises a ValueError whose message carries the
unknown name (the caller at line 229 tests for the given message shape);
a known tool runs its registered function, which may itself raise. -/
def executeTool (tools : List (List Char × (Json → Except PyErr Json)))
    (name : List Char) (input : Json) : Except PyErr Json :=
  match lookupA tools name with
  | none => Except.error (PyErr.valueError (strL (r"Unknown tool: ") ++ name))
  | some f => f input

/-- The wrap performed by the handler at line 239: any fault escaping
the tool-dispatch loop is re-raised as ValueError with this message. -/
def failedToolErr (e : PyErr) : PyErr :=
  PyErr.valueError (strL (r"Failed to execute tool: ") ++ pyMsg e)

/-- The tool-dispatch loop of the tool_use branch (converse_agent.py
lines 216-232): each requested tool runs through execute_tool; a
ValueError whose message starts with the unknown-tool text is captured
and appended as an Error item; any other fault escapes the loop and is
wrapped by the handler at line 239 (a re-raised ValueError included,
since the outer handler catches every Exception). -/
def dispatchTools (tools : List (List Char × (Json → Except PyErr Json))) :
    List RContent → Except PyErr (List UContent)
  | [] => Except.ok []
  | RContent.toolUse _ name input :: rest =>
    match executeTool tools name input with
    | Except.ok result =>
      match dispatchTools tools rest with
      | Except.ok acc => Except.ok (UContent.toolResult result :: acc)
      | Except.error e => Except.error e
    | Except.error (PyErr.valueError msg) =>
      if isPrefixL (strL (r"Unknown tool: ")) msg then
        match dispatchTools tools rest with
        | Except.ok acc => Except.ok (UContent.toolError msg :: acc)
        | Except.error e => Except.error e
      else Except.error (failedToolErr (PyErr.valueError msg))
    | Except.error e => Except.error (failedToolErr e)
  | _ :: rest => dispatchTools tools rest

/-- The first text item of a response (the extraction loop at lines
200-204); none when no text item exists. -/
def firstRText : List RContent → Option (List Char)
  | [] => none
  | RContent.text t :: _ => some t
  | _ :: rest => firstRText rest

/-- Stop reason strings as the source compares them. -/
def endTurnS : List Char := strL (r"end_turn")

/-- Stop reason: stop_sequence. -/
def stopSequenceS : List Char := strL (r"stop_sequence")

/-- Stop reason: tool_use. -/
def toolUseS : List Char := strL (r"tool_use")

/-- Stop reason: max_tokens. -/
def maxTokensS : List Char := strL (r"max_tokens")

/-- ConverseAgent.invoke with _handle_response inlined
(converse_agent.py lines 105-128 and 179-247).  invoke appends the user
turn, runs the transient-fault retry loop, appends the response to the
transcript, and handles it: end_turn / stop_sequence extract and return
the first text (the delimiter trim at lines 205-209 is skipped because
self.response_output_tags is initialized empty at line 95 and never
set); tool_use dispatches the requested tools and recurses on the tool
results as the next user turn; max_tokens sleeps, recurses with the
continuation prompt and then falls off the branch, so the handler
returns Python's None while the continuation's text is discarded (line
244 has no return); any other stop reason raises.  Fuel bounds the
recursion depth; every recursive call consumes at least one script
entry, so fuel beyond the script length never runs out. -/
def invoke (tools : List (List Char × (Json → Except PyErr Json))) :
    Nat → AgentState → List UContent → Except PyErr (Option (List Char) × AgentState)
  | 0, _, _ => Except.error PyErr.modelExhausted
  | fuel + 1, st, content =>
    match converseRetry st.script with
    | Except.error e => Except.error e
    | Except.ok (resp, script1, _) =>
      let st1 : AgentState :=
        ⟨st.messages ++ [Message.user content, Message.assistant resp], script1⟩
      if resp.stopReason = endTurnS ∨ resp.stopReason = stopSequenceS then
        Except.ok (firstRText resp.content, st1)
      else if resp.stopReason = toolUseS then
        match dispatchTools tools resp.content with
        | Except.error e => Except.error e
        | Except.ok toolResponse => invoke tools fuel st1 toolResponse
      else if resp.stopReason = maxTokensS then
        match invoke tools fuel st1 [UContent.text (strL (r"Please continue."))] with
        | Except.error e => Except.error e
        | Except.ok (_, st2) => Except.ok (none, st2)
      else
        Except.error (PyErr.valueError (strL (r"Unknown stop reason: ") ++ resp.stopReason))

/-! ## Parallel ForEach

ForEach.actual_execute in parallel mode (process_definitions.py lines
353-362) builds every iteration's task before awaiting any of them
(asyncio.gather schedules them all), assigning profiles round robin,
and _process_iteration_wrapper (lines 338-343) runs each iteration's
body under the asyncio.Lock of its profile
(self.profile_locks[profile], a per-profile mutex).  The cooperative
interleaving is modelled as a transition system over one status per
task: a waiting task may enter its body only while no task of the same
profile is running (lock acquisition), and a running task may finish
(lock release). -/

/-- The launch loop at lines 355-361: one task per item, with the
profile picked by pid and pid advanced by (pid + 1) % len(profiles).
Returns the assigned profile of each iteration in launch order. -/
def assignProfiles (profiles : List (List Char)) : Nat → Nat → List (List Char)
  | _, 0 => []
  | pid, n + 1 =>
    (profiles[pid]?).getD [] :: assignProfiles profiles ((pid + 1) % profiles.length) n

/-- Status of one iteration task: not yet in its body, inside its body
holding its profile's lock, or finished. -/
inductive TStat where
  | waiting : TStat
  | running : TStat
  | done : TStat

/-- One cooperative scheduling step among the n iteration tasks, where
prof gives each task's assigned profile: task i may enter its body when
it is waiting and its profile's lock is free (no same-profile task is
running), and a running task may finish, releasing the lock. -/
inductive ParStep (n : Nat) (prof : Nat → List Char) :
    (Nat → TStat) → (Nat → TStat) → Prop where
  | acquire (s : Nat → TStat) (i : Nat) (hi : i < n) (hw : s i = TStat.waiting)
      (hfree : ∀ j, j < n → prof j = prof i → s j ≠ TStat.running) :
      ParStep n prof s (Function.update s i TStat.running)
  | finish (s : Nat → TStat) (i : Nat) (hi : i < n) (hr : s i = TStat.running) :
      ParStep n prof s (Function.update s i TStat.done)

/-- The initial configuration: every iteration launched, none started. -/
def allWaiting : Nat → TStat := fun _ => TStat.waiting

/-- Remaining scheduler work of one task. -/
def tWork : TStat → Nat
  | TStat.waiting => 2
  | TStat.running => 1
  | TStat.done => 0

/-- Remaining scheduler work of a configuration of n tasks. -/
def parMeasure (n : Nat) (s : Nat → TStat) : Nat :=
  Finset.sum (Finset.range n) (fun i => tWork (s i))

/-! ## The context-memory store with its backing directory

context_memory.py.  The store is an in-process dict (cache) plus one
file per entry key under the memory directory (disk); file content is
json.dumps of the value.  Keys are modelled as the file names they
become.  A file whose content json.loads rejects would raise in the
source; the reads below answer none for that case, and the startup
loader skips such a file (the store itself never writes one). -/

/-- The store state: the in-memory dict and the backing directory. -/
structure CMState where
  cache : List (List Char × Json)
  disk : List (List Char × List Char)

/-- add_or_update_memory_entry (context_memory.py lines 18-29): update
the dict, write json.dumps of the value to the key's file. -/
def addOrUpdateMemoryEntry (st : CMState) (key : List Char) (v : Json) : CMState :=
  ⟨insertA st.cache key v, insertA st.disk key (dumps v)⟩

/-- Python file.startswith of a dot (line 113). -/
def headIsDot : List Char → Bool
  | '.' :: _ => true
  | _ => false

/-- Value of a hexadecimal digit character (json.loads unicode escapes). -/
def hexVal (c : Char) : Option Nat :=
  if '0' ≤ c ∧ c ≤ '9' then some (c.toNat - 48)
  else if 'a' ≤ c ∧ c ≤ 'f' then some (c.toNat - 87)
  else if 'A' ≤ c ∧ c ≤ 'F' then some (c.toNat - 55)
  else none

/-- The character a simple json string escape denotes. -/
def unescChar (c : Char) : Option Char :=
  if c = '"' then some '"'
  else if c = '\\' then some '\\'
  else if c = '/' then some '/'
  else if c = 'n' then some '\n'
  else if c = 't' then some '\t'
  else if c = 'r' then some '\r'
  else if c = 'b' then some (Char.ofNat 8)
  else if c = 'f' then some (Char.ofNat 12)
  else none

/-- json.loads of a string body after its opening quote: literal
characters up to the closing quote, with backslash escapes and
four-digit unicode escapes decoded; a raw control character or a bad
escape is rejected, as the strict default decoder does. -/
def parseStrBody : List Char → Option (List Char × List Char)
  | [] => none
  | '"' :: rest => some ([], rest)
  | '\\' :: 'u' :: a :: b :: c :: d :: rest =>
    match hexVal a, hexVal b, hexVal c, hexVal d with
    | some x, some y, some z, some w =>
      match parseStrBody rest with
      | some (s, r2) => some (Char.ofNat (((x * 16 + y) * 16 + z) * 16 + w) :: s, r2)
      | none => none
    | _, _, _, _ => none
  | '\\' :: e :: rest =>
    match unescChar e with
    | some c =>
      match parseStrBody rest with
      | some (s, r2) => some (c :: s, r2)
      | none => none
    | none => none
  | c :: rest =>
    if c.toNat < 32 then none
    else
      match parseStrBody rest with
      | some (s, r2) => some (c :: s, r2)
      | none => none

/-- Decimal value of a digit run. -/
def digitsVal (ds : List Char) : Nat :=
  ds.foldl (fun a c => 10 * a + (c.toNat - 48)) 0

mutual

/-- json.loads, fueled recursive-descent core: one JSON value off the
front of the input.  The grammar is the one dumps above emits (compact
separators); fuel bounds the nesting and never runs out when it is at
least the input length plus one. -/
def parseJ : Nat → List Char → Option (Json × List Char)
  | 0, _ => none
  | f + 1, s =>
    match s with
    | 'n' :: 'u' :: 'l' :: 'l' :: r => some (Json.null, r)
    | 't' :: 'r' :: 'u' :: 'e' :: r => some (Json.bool true, r)
    | 'f' :: 'a' :: 'l' :: 's' :: 'e' :: r => some (Json.bool false, r)
    | '"' :: r =>
      match parseStrBody r with
      | some (s1, r1) => some (Json.str s1, r1)
      | none => none
    | '[' :: ']' :: r => some (Json.arr [], r)
    | '[' :: r =>
      match parseJ f r with
      | some (x, r1) =>
        match parseElems f r1 with
        | some (xs, r2) => some (Json.arr (x :: xs), r2)
        | none => none
      | none => none
    | '{' :: '}' :: r => some (Json.obj [], r)
    | '{' :: '"' :: r =>
      match parseStrBody r with
      | some (k, r1) =>
        match r1 with
        | ':' :: r2 =>
          match parseJ f r2 with
          | some (v, r3) =>
            match parseMembers f r3 with
            | some (kvs, r4) => some (Json.obj ((k, v) :: kvs), r4)
            | none => none
          | none => none
        | _ => none
      | none => none
    | '-' :: r =>
      match r.takeWhile Char.isDigit with
      | [] => none
      | ds => some (Json.num (-(digitsVal ds : Int)), r.dropWhile Char.isDigit)
    | c :: r =>
      if c.isDigit then
        some (Json.num (digitsVal ((c :: r).takeWhile Char.isDigit)),
          (c :: r).dropWhile Char.isDigit)
      else none
    | [] => none

/-- Array continuation after the first element: comma-separated values
up to the closing bracket. -/
def parseElems : Nat → List Char → Option (List Json × List Char)
  | 0, _ => none
  | f + 1, s =>
    match s with
    | ']' :: r => some ([], r)
    | ',' :: r =>
      match parseJ f r with
      | some (x, r1) =>
        match parseElems f r1 with
        | some (xs, r2) => some (x :: xs, r2)
        | none => none
      | none => none
    | _ => none

/-- Object continuation after the first member: comma-separated
string-key members up to the closing brace. -/
def parseMembers : Nat → List Char → Option (List (List Char × Json) × List Char)
  | 0, _ => none
  | f + 1, s =>
    match s with
    | '}' :: r => some ([], r)
    | ',' :: '"' :: r =>
      match parseStrBody r with
      | some (k, r1) =>
        match r1 with
        | ':' :: r2 =>
          match parseJ f r2 with
          | some (v, r3) =>
            match parseMembers f r3 with
            | some (kvs, r4) => some ((k, v) :: kvs, r4)
            | none => none
          | none => none
        | _ => none
      | none => none
    | _ => none

end

/-- json.loads of a whole file content: one value consuming the input. -/
def loads (s : List Char) : Option Json :=
  match parseJ (s.length + 1) s with
  | some (v, []) => some v
  | _ => none

/-- read_memory_entry (context_memory.py lines 48-63): the cached value
if the key is in the dict; else, if the key's file exists, its parsed
content (which also enters the cache); else the absent sentinel.  none
models the raise of an unparsable file. -/
def readMemoryEntry (st : CMState) (key : List Char) : Option (Json × CMState) :=
  match lookupA st.cache key with
  | some v => some (v, st)
  | none =>
    match lookupA st.disk key with
    | some content =>
      match loads content with
      | some v => some (v, ⟨insertA st.cache key v, st.disk⟩)
      | none => none
    | none => some (Json.str noEntry, st)

/-- Just the value a read answers. -/
def readValue (st : CMState) (key : List Char) : Option Json :=
  match readMemoryEntry st key with
  | some (v, _) => some v
  | none => none

/-- One step of the startup load: a dotfile is skipped, any other file
becomes the cache entry holding its parsed content. -/
def loadEntry : List Char × List Char → Option (List Char × Json) := fun kv =>
  if headIsDot kv.1 then none else (loads kv.2).map (fun v => (kv.1, v))

/-- The startup load in the main block (context_memory.py lines
109-118): a process restart builds a fresh cache by parsing every
non-dotfile of the backing directory. -/
def restart (disk : List (List Char × List Char)) : CMState :=
  ⟨disk.filterMap loadEntry, disk⟩

/-- The memory tool as the interpolation loop calls it over a live
store: read_memory_entry behind the MCP content conversion. -/
def mcpRead (st : CMState) : List Char → Except (List Char) (List (Option (List Char))) :=
  fun k =>
    match readMemoryEntry st k with
    | some (v, _) => Except.ok (wrapResult v)
    | none => Except.error (strL (r"decode error"))

/-- True exactly for the fault the dispatch loop captures: a ValueError
whose message starts with the unknown-tool text. -/
def isUnknownToolErr : PyErr → Bool
  | PyErr.valueError m => isPrefixL (strL (r"Unknown tool: ")) m
  | _ => false

/-- A context that may legally follow a serialized value: empty, or
starting with a non-digit (in dumps output always a comma, bracket or
brace), so that number parsing stops at the value's boundary. -/
def delimOkP : List Char → Prop := fun r =>
  match r with
  | [] => True
  | c :: _ => c.isDigit = false

/-! ## Helper lemmas -/

theorem isPrefixL_refl : ∀ l : List Char, isPrefixL l l = true := by
  intro l
  induction l with
  | nil => rfl
  | cons c cs ih => simp [isPrefixL, ih]

theorem strReplaceF_nil (pat rep : List Char) (f : Nat) : strReplaceF pat rep f [] = [] := by
  cases f <;> rfl

theorem strReplace_self (pat rep : List Char) (h : pat ≠ []) :
    strReplace pat pat rep = rep := by
  cases pat with
  | nil => exact absurd rfl h
  | cons c cs =>
    show strReplaceF (c :: cs) rep (c :: cs).length (c :: cs) = rep
    rw [List.length_cons]
    simp [strReplaceF, isPrefixL_refl, List.drop_length, strReplaceF_nil]

/-- The interpolation loop only ever logs a memory read for a variable
the override map does not bind. -/
theorem interpReadsAux (ctx : List (List Char × List Char))
    (readFn : List Char → Except (List Char) (List (Option (List Char)))) :
    ∀ (l : List (List Char)) (st : InterpState),
      (∀ u ∈ st.reads, lookupA ctx u = none) →
      ∀ u ∈ (List.foldl (processVar ctx readFn) st l).reads, lookupA ctx u = none := by
  intro l
  induction l with
  | nil => intro st h u hu; rw [List.foldl_nil] at hu; exact h u hu
  | cons x xs ih =>
    intro st h
    rw [List.foldl_cons]
    apply ih
    intro u hu
    cases hx : lookupA ctx x with
    | some w =>
      simp only [processVar, hx] at hu
      exact h u hu
    | none =>
      cases hr : readFn x with
      | error e =>
        simp only [processVar, hx, hr] at hu
        rcases List.mem_append.mp hu with hu1 | hu2
        · exact h u hu1
        · rw [List.mem_singleton.mp hu2]; exact hx
      | ok c =>
        by_cases hgc : goodContent c = true
        · simp only [processVar, hx, hr, hgc, if_pos] at hu
          rcases List.mem_append.mp hu with hu1 | hu2
          · exact h u hu1
          · rw [List.mem_singleton.mp hu2]; exact hx
        · simp only [processVar, hx, hr, hgc, if_neg] at hu
          rcases List.mem_append.mp hu with hu1 | hu2
          · exact h u hu1
          · rw [List.mem_singleton.mp hu2]; exact hx

/-! ## Claims -/

/-- C1: for every skippable Step whose DONE witness (memory entry
qualified-id_status equal to the done text) is present, execute returns
immediately: the result is the unchanged memory with only the single
status read as effect, hence actual_execute is never invoked and no
memory entry is written or changed. -/
theorem stepExecute_skip_of_done
    (stepId parentId : List Char) (actual : Mem → Mem × List Effect) (m : Mem)
    (h : lookupA m (getId stepId parentId ++ strL (r"_status")) = some (Json.str doneText)) :
    stepExecute true stepId parentId actual m
        = (m, [Effect.readMem (getId stepId parentId ++ strL (r"_status"))]) ∧
      Effect.runActual ∉ (stepExecute true stepId parentId actual m).2 ∧
      ∀ k v, Effect.writeMem k v ∉ (stepExecute true stepId parentId actual m).2 := by
  have hc : firstTextIs
      (readContent m (getId stepId parentId ++ strL (r"_status"))) doneText = true := by
    simp [readContent, readEntry, h, wrapResult, firstTextIs]
  have he : stepExecute true stepId parentId actual m
      = (m, [Effect.readMem (getId stepId parentId ++ strL (r"_status"))]) := by
    simp [stepExecute, hc]
  refine ⟨he, ?_, ?_⟩
  · rw [he]; simp
  · intro k v; rw [he]; simp

/-- Evaluation of the C1 theorem at a concrete step and memory. -/
theorem stepExecute_skip_of_done_ev :
    stepExecute true (strL (r"s1")) [] (fun m => (m, [Effect.runActual]))
        [(strL (r"s1_status"), Json.str doneText)]
      = ([(strL (r"s1_status"), Json.str doneText)],
          [Effect.readMem (strL (r"s1_status"))]) :=
  (stepExecute_skip_of_done (strL (r"s1")) [] (fun m => (m, [Effect.runActual]))
    [(strL (r"s1_status"), Json.str doneText)] rfl).1

/-- C2: for a ForEach with no list-producing callable, a stored list
under qualified-id_expression_list is used as is with no agent call;
an absent list triggers the agent path exactly once and the call fails
fatally exactly when the key is still absent after that round trip;
and a second call after a successful one (a resumed run) returns the
identical ordered list with no further agent call, so the computation
runs at most once across both calls. -/
theorem getExpressionList_memoized
    (agentRun : Mem → Mem) (m : Mem) (qid : List Char) :
    (goodContent (readContent m (qid ++ strL (r"_expression_list"))) = true →
        getExpressionList agentRun m qid
          = (Except.ok (readContent m (qid ++ strL (r"_expression_list"))), m, 0)) ∧
    (goodContent (readContent m (qid ++ strL (r"_expression_list"))) = false →
        (getExpressionList agentRun m qid).2.2 = 1 ∧
        ((getExpressionList agentRun m qid).1
            = Except.error (strL (r"Failed to calculate expression_list")) ↔
          goodContent
            (readContent (agentRun m) (qid ++ strL (r"_expression_list"))) = false)) ∧
    (∀ l, (getExpressionList agentRun m qid).1 = Except.ok l →
        getExpressionList agentRun (getExpressionList agentRun m qid).2.1 qid
          = (Except.ok l, (getExpressionList agentRun m qid).2.1, 0)) := by
  by_cases hg : goodContent (readContent m (qid ++ strL (r"_expression_list"))) = true
  · have he : getExpressionList agentRun m qid
        = (Except.ok (readContent m (qid ++ strL (r"_expression_list"))), m, 0) := by
      simp [getExpressionList, hg]
    refine ⟨fun _ => he, fun hf => absurd hg (by simp [hf]), ?_⟩
    intro l hl
    rw [he] at hl
    simp only [Except.ok.injEq] at hl
    rw [he, hl]
    exact he.trans (by rw [hl])
  · have hg' : goodContent (readContent m (qid ++ strL (r"_expression_list"))) = false := by
      simp at hg; exact hg
    by_cases h2 : goodContent (readContent (agentRun m) (qid ++ strL (r"_expression_list"))) = true
    · have he : getExpressionList agentRun m qid
          = (Except.ok (readContent (agentRun m) (qid ++ strL (r"_expression_list"))),
              agentRun m, 1) := by
        simp [getExpressionList, hg', h2]
      refine ⟨fun hc => absurd hc (by simp [hg']), fun _ => ⟨by rw [he], ?_⟩, ?_⟩
      · rw [he]
        simp [h2]
      · intro l hl
        rw [he] at hl
        simp only [Except.ok.injEq] at hl
        rw [he]
        simp only []
        rw [← hl] at *
        simp [getExpressionList, h2]
    · have h2' : goodContent
          (readContent (agentRun m) (qid ++ strL (r"_expression_list"))) = false := by
        simp at h2; exact h2
      have he : getExpressionList agentRun m qid
          = (Except.error (strL (r"Failed to calculate expression_list")), agentRun m, 1) := by
        simp [getExpressionList, hg', h2']
      refine ⟨fun hc => absurd hc (by simp [hg']), fun _ => ⟨by rw [he], ?_⟩, ?_⟩
      · rw [he]; simp [h2']
      · intro l hl
        rw [he] at hl
        exact absurd hl (by simp)

/-- Evaluation of the C2 theorem: resuming after a successful
agent-backed computation finds the stored list and reuses it. -/
theorem getExpressionList_memoized_ev :
    getExpressionList
        (fun m => insertA m (strL (r"f_expression_list")) (Json.arr [Json.str ['a']]))
        [(strL (r"f_expression_list"), Json.arr [Json.str ['a']])] ['f']
      = (Except.ok [some ['a']],
          [(strL (r"f_expression_list"), Json.arr [Json.str ['a']])], 0) :=
  (getExpressionList_memoized
      (fun m => insertA m (strL (r"f_expression_list")) (Json.arr [Json.str ['a']]))
      [] ['f']).2.2 [some ['a']] rfl

/-- C3: interpolation case behavior.  Globally, every memory read the
loop performs is for a variable the override map does not bind (an
override hit never consults the store).  Stepwise, a variable bound by
the override map is substituted from it; an unbound variable with a
good stored value is substituted from the store (and the read logged);
an unbound variable absent from both leaves the prompt unchanged and
logs the warning; and a raising read is caught, leaving the prompt
unchanged — the interpolation function itself is total and never
raises. -/
theorem replaceContextVariables_cases
    (p : List Char) (ctx : List (List Char × List Char))
    (readFn : List Char → Except (List Char) (List (Option (List Char)))) :
    (∀ u ∈ (replaceContextVariables p ctx readFn).reads, lookupA ctx u = none) ∧
    (∀ (st : InterpState) (v w : List Char), lookupA ctx v = some w →
        processVar ctx readFn st v
          = ⟨strReplace st.prompt (varRef v) w, st.reads, st.warns, st.errs⟩) ∧
    (∀ (st : InterpState) (v : List Char) (c : List (Option (List Char))),
        lookupA ctx v = none → readFn v = Except.ok c → goodContent c = true →
        processVar ctx readFn st v
          = ⟨strReplace st.prompt (varRef v) (firstText c),
              st.reads ++ [v], st.warns, st.errs⟩) ∧
    (∀ (st : InterpState) (v : List Char) (c : List (Option (List Char))),
        lookupA ctx v = none → readFn v = Except.ok c → goodContent c = false →
        processVar ctx readFn st v
          = ⟨st.prompt, st.reads ++ [v], st.warns ++ [v], st.errs⟩) ∧
    (∀ (st : InterpState) (v e : List Char),
        lookupA ctx v = none → readFn v = Except.error e →
        processVar ctx readFn st v
          = ⟨st.prompt, st.reads ++ [v], st.warns, st.errs ++ [v]⟩) := by
  refine ⟨?_, ?_, ?_, ?_, ?_⟩
  · exact interpReadsAux ctx readFn (findVars p) ⟨p, [], [], []⟩ (by intro u hu; cases hu)
  · intro st v w h
    simp [processVar, h]
  · intro st v c h hr hgc
    simp [processVar, h, hr, hgc]
  · intro st v c h hr hgc
    simp [processVar, h, hr, hgc]
  · intro st v e h hr
    simp [processVar, h, hr]

/-- Evaluation of the C3 theorem: an override hit substitutes the
override value without touching the store. -/
theorem replaceContextVariables_cases_ev :
    processVar [(['a'], ['X'])] (fun _ => Except.ok [])
        ⟨varRef ['a'], [], [], []⟩ ['a']
      = ⟨['X'], [], [], []⟩ :=
  (replaceContextVariables_cases (varRef ['a']) [(['a'], ['X'])]
      (fun _ => Except.ok [])).2.1 ⟨varRef ['a'], [], [], []⟩ ['a'] ['X'] rfl

/-- C9 counterexample: interpolating a prompt referencing variables a
then b, where a's override value is the literal reference text for b,
re-substitutes the text introduced for a — the output is XX, not the
introduced reference left verbatim followed by X — because str.replace
for a later-scanned variable acts on the whole current prompt. -/
theorem interp_reexpansion_cx :
    (replaceContextVariables (varRef ['a'] ++ varRef ['b'])
        [(['a'], varRef ['b']), (['b'], ['X'])] (fun _ => Except.ok [])).prompt
        = ['X', 'X'] ∧
      (replaceContextVariables (varRef ['a'] ++ varRef ['b'])
        [(['a'], varRef ['b']), (['b'], ['X'])] (fun _ => Except.ok [])).prompt
        ≠ varRef ['b'] ++ ['X'] := by
  exact ⟨by decide, by decide⟩

/-- C9 amended: the scan for variable names happens once, on the
original prompt, so substituted text is never rescanned for new
variables — substituting the value of the last-processed variable is
final: for every value s, even one full of dollar-brace references,
interpolating a prompt that is exactly one reference bound to s yields
s verbatim. -/
theorem interp_single_scan (s : List Char)
    (readFn : List Char → Except (List Char) (List (Option (List Char)))) :
    (replaceContextVariables (varRef ['a']) [(['a'], s)] readFn).prompt = s := by
  have hv : findVars (varRef ['a']) = [['a']] := rfl
  unfold replaceContextVariables
  rw [hv, List.foldl_cons, List.foldl_nil]
  have hl : lookupA [(['a'], s)] ['a'] = some s := rfl
  simp only [processVar, hl]
  exact strReplace_self (varRef ['a']) s (by simp [varRef])

theorem isPrefixL_append_self (p t : List Char) : isPrefixL p (p ++ t) = true := by
  induction p with
  | nil => rfl
  | cons c cs ih => simp [isPrefixL, ih]

/-- The retry loop returns the first scripted response after eating any
all-transient prefix, sleeping once per transient entry. -/
theorem converseRetry_ok_aux :
    ∀ ts : List ModelOutcome,
      (∀ t ∈ ts, t = ModelOutcome.throttle ∨ t = ModelOutcome.modelTimeout) →
      ∀ resp rest, converseRetry (ts ++ ModelOutcome.ok resp :: rest)
        = Except.ok (resp, rest, ts.length) := by
  intro ts
  induction ts with
  | nil => intro _ resp rest; rfl
  | cons t ts' ih =>
    intro h resp rest
    have ht := h t (List.mem_cons_self t ts')
    have h' : ∀ u ∈ ts', u = ModelOutcome.throttle ∨ u = ModelOutcome.modelTimeout :=
      fun u hu => h u (List.mem_cons_of_mem t hu)
    rcases ht with rfl | rfl
    · show converseRetry (ModelOutcome.throttle :: (ts' ++ ModelOutcome.ok resp :: rest))
        = Except.ok (resp, rest, ts'.length + 1)
      rw [converseRetry, ih h' resp rest]
    · show converseRetry (ModelOutcome.modelTimeout :: (ts' ++ ModelOutcome.ok resp :: rest))
        = Except.ok (resp, rest, ts'.length + 1)
      rw [converseRetry, ih h' resp rest]

/-- The retry loop propagates the first non-transient fault unchanged. -/
theorem converseRetry_fatal_aux :
    ∀ ts : List ModelOutcome,
      (∀ t ∈ ts, t = ModelOutcome.throttle ∨ t = ModelOutcome.modelTimeout) →
      ∀ msg rest, converseRetry (ts ++ ModelOutcome.fatal msg :: rest)
        = Except.error (PyErr.otherError msg) := by
  intro ts
  induction ts with
  | nil => intro _ msg rest; rfl
  | cons t ts' ih =>
    intro h msg rest
    have ht := h t (List.mem_cons_self t ts')
    have h' : ∀ u ∈ ts', u = ModelOutcome.throttle ∨ u = ModelOutcome.modelTimeout :=
      fun u hu => h u (List.mem_cons_of_mem t hu)
    rcases ht with rfl | rfl
    · show converseRetry (ModelOutcome.throttle :: (ts' ++ ModelOutcome.fatal msg :: rest))
        = Except.error (PyErr.otherError msg)
      rw [converseRetry, ih h' msg rest]
    · show converseRetry (ModelOutcome.modelTimeout :: (ts' ++ ModelOutcome.fatal msg :: rest))
        = Except.error (PyErr.otherError msg)
      rw [converseRetry, ih h' msg rest]

/-- C6: the completion call retries exactly the two transient provider
faults — throttling and model timeout — with one fixed-delay sleep per
fault and no attempt cap: an arbitrarily long all-transient prefix is
consumed (the sleep count equals its length) and the loop exits only
when a response arrives or a non-transient fault is raised; any other
fault propagates out of the loop, and out of invoke, as a fatal
failure of the call. -/
theorem converseRetry_unbounded_transients
    (ts : List ModelOutcome)
    (hts : ∀ t ∈ ts, t = ModelOutcome.throttle ∨ t = ModelOutcome.modelTimeout) :
    (∀ resp rest, converseRetry (ts ++ ModelOutcome.ok resp :: rest)
        = Except.ok (resp, rest, ts.length)) ∧
    (∀ msg rest, converseRetry (ts ++ ModelOutcome.fatal msg :: rest)
        = Except.error (PyErr.otherError msg)) ∧
    (∀ (tools : List (List Char × (Json → Except PyErr Json))) (fuel : Nat)
        (msgs : List Message) (content : List UContent) (msg : List Char)
        (rest : List ModelOutcome),
      invoke tools (fuel + 1) ⟨msgs, ts ++ ModelOutcome.fatal msg :: rest⟩ content
        = Except.error (PyErr.otherError msg)) := by
  refine ⟨converseRetry_ok_aux ts hts, converseRetry_fatal_aux ts hts, ?_⟩
  intro tools fuel msgs content msg rest
  simp only [invoke, converseRetry_fatal_aux ts hts msg rest]

/-- Evaluation of the C6 theorem: two transient faults, then success
after exactly two fixed-delay retries. -/
theorem converseRetry_unbounded_transients_ev :
    converseRetry [ModelOutcome.throttle, ModelOutcome.modelTimeout,
        ModelOutcome.ok ⟨endTurnS, []⟩]
      = Except.ok (⟨endTurnS, []⟩, [], 2) :=
  (converseRetry_unbounded_transients
      [ModelOutcome.throttle, ModelOutcome.modelTimeout]
      (by intro t ht
          rcases List.mem_cons.mp ht with rfl | ht2
          · exact Or.inl rfl
          · rcases List.mem_cons.mp ht2 with rfl | ht3
            · exact Or.inr rfl
            · cases ht3)).1 ⟨endTurnS, []⟩ []

/-- C7: during tool dispatch, a requested name bound to no registered
tool does not abort the run — the unknown-tool ValueError is captured,
appended to the transcript as an error item in the next user turn, and
the conversation continues to its terminal text; whereas a fault of any
other shape raised while executing a registered tool escapes the
dispatch loop and propagates to the agent's caller (wrapped by the
handler into the failed-to-execute ValueError), aborting the run. -/
theorem dispatch_unknown_tool_recovers
    (tools : List (List Char × (Json → Except PyErr Json)))
    (tid name : List Char) (input : Json) (msgs : List Message)
    (content : List UContent) (t : List Char) (rest : List ModelOutcome) (fuel : Nat)
    (hunknown : lookupA tools name = none) :
    invoke tools (fuel + 2)
        ⟨msgs, ModelOutcome.ok ⟨toolUseS, [RContent.toolUse tid name input]⟩
            :: ModelOutcome.ok ⟨endTurnS, [RContent.text t]⟩ :: rest⟩ content
      = Except.ok (some t,
          ⟨msgs ++ [Message.user content,
              Message.assistant ⟨toolUseS, [RContent.toolUse tid name input]⟩,
              Message.user [UContent.toolError (strL (r"Unknown tool: ") ++ name)],
              Message.assistant ⟨endTurnS, [RContent.text t]⟩], rest⟩) ∧
    (∀ (tools2 : List (List Char × (Json → Except PyErr Json)))
        (name2 : List Char) (f : Json → Except PyErr Json) (e : PyErr),
      lookupA tools2 name2 = some f → f input = Except.error e →
      isUnknownToolErr e = false →
      invoke tools2 (fuel + 2)
          ⟨msgs, ModelOutcome.ok ⟨toolUseS, [RContent.toolUse tid name2 input]⟩
              :: ModelOutcome.ok ⟨endTurnS, [RContent.text t]⟩ :: rest⟩ content
        = Except.error (failedToolErr e)) := by
  have hA1 : ¬(toolUseS = endTurnS) := by decide
  have hA2 : ¬(toolUseS = stopSequenceS) := by decide
  constructor
  · have hd : dispatchTools tools [RContent.toolUse tid name input]
        = Except.ok [UContent.toolError (strL (r"Unknown tool: ") ++ name)] := by
      simp [dispatchTools, executeTool, hunknown, isPrefixL_append_self]
    simp only [invoke, converseRetry, hA1, hA2, or_self, if_false, eq_self_iff_true,
      if_true, hd, or_false, false_or, firstRText, true_or]
    simp [List.append_assoc]
  · intro tools2 name2 f e hf he hu
    have hd : dispatchTools tools2 [RContent.toolUse tid name2 input]
        = Except.error (failedToolErr e) := by
      simp only [dispatchTools, executeTool, hf, he]
      cases e with
      | valueError m =>
        simp only [isUnknownToolErr] at hu
        simp [hu]
      | otherError m => rfl
      | modelExhausted => rfl
    simp only [invoke, converseRetry, hA1, hA2, or_self, if_false, eq_self_iff_true,
      if_true, hd, or_false, false_or]

/-- Evaluation of the C7 theorem: the unknown-tool case with no
registered tools, at a concrete request. -/
theorem dispatch_unknown_tool_recovers_ev :
    invoke [] 2
        ⟨[], [ModelOutcome.ok ⟨toolUseS, [RContent.toolUse ['i'] ['g'] Json.null]⟩,
            ModelOutcome.ok ⟨endTurnS, [RContent.text ['T']]⟩]⟩ []
      = Except.ok (some ['T'],
          ⟨[Message.user [],
              Message.assistant ⟨toolUseS, [RContent.toolUse ['i'] ['g'] Json.null]⟩,
              Message.user [UContent.toolError (strL (r"Unknown tool: ") ++ ['g'])],
              Message.assistant ⟨endTurnS, [RContent.text ['T']]⟩], []⟩) :=
  (dispatch_unknown_tool_recovers [] ['i'] ['g'] Json.null [] [] ['T'] [] 0 rfl).1

/-- C5 (code evaluation at the failing input): a max_tokens stop
followed by the continued conversation's end_turn text T makes the
outer invoke return Python's None — the max_tokens branch at
converse_agent.py line 244 awaits the continuation but discards its
result and falls off the branch without a return — even though the
continuation itself (second conjunct) completes with text T, and the
final transcript contains both turns.  The spec's agent state machine
instead reaches TERMINAL and returns the extracted final text to the
caller. -/
theorem invoke_max_tokens_drops_text :
    invoke [] 2 ⟨[], [ModelOutcome.ok ⟨maxTokensS, []⟩,
        ModelOutcome.ok ⟨endTurnS, [RContent.text ['T']]⟩]⟩ [UContent.text ['p']]
      = Except.ok (none,
          ⟨[Message.user [UContent.text ['p']],
              Message.assistant ⟨maxTokensS, []⟩,
              Message.user [UContent.text (strL (r"Please continue."))],
              Message.assistant ⟨endTurnS, [RContent.text ['T']]⟩], []⟩) ∧
    invoke [] 1 ⟨[], [ModelOutcome.ok ⟨endTurnS, [RContent.text ['T']]⟩]⟩
        [UContent.text (strL (r"Please continue."))]
      = Except.ok (some ['T'],
          ⟨[Message.user [UContent.text (strL (r"Please continue."))],
              Message.assistant ⟨endTurnS, [RContent.text ['T']]⟩], []⟩) :=
  ⟨rfl, rfl⟩

/-- The launch loop, started at any pid below the profile count,
assigns iteration k (0-based) the profile at index (pid + k) mod P. -/
theorem assignProfilesAux (profiles : List (List Char)) :
    ∀ (n pid : Nat), pid < profiles.length →
      assignProfiles profiles pid n
        = (List.range n).map
            (fun k => (profiles[(pid + k) % profiles.length]?).getD []) := by
  intro n
  induction n with
  | zero => intro pid _; rfl
  | succ n ih =>
    intro pid hpid
    have hlen : 0 < profiles.length := Nat.lt_of_le_of_lt (Nat.zero_le pid) hpid
    rw [assignProfiles, ih ((pid + 1) % profiles.length) (Nat.mod_lt _ hlen),
      List.range_succ_eq_map]
    simp only [List.map_cons, List.map_map]
    congr 1
    · rw [Nat.add_zero, Nat.mod_eq_of_lt hpid]
    · apply List.map_congr_left
      intro k _
      simp only [Function.comp_apply]
      rw [Nat.mod_add_mod]
      have he : pid + 1 + k = pid + Nat.succ k := by omega
      rw [he]

/-- Mutual exclusion invariant: from the all-waiting start, no
reachable configuration has two distinct same-profile tasks inside
their bodies at once. -/
theorem parMutexAux (n : Nat) (prof : Nat → List Char) :
    ∀ s, Relation.ReflTransGen (ParStep n prof) allWaiting s →
      ∀ i j, i < n → j < n → i ≠ j → prof i = prof j →
        ¬(s i = TStat.running ∧ s j = TStat.running) := by
  intro s h
  induction h with
  | refl =>
    intro i j _ _ _ _ hij
    exact absurd hij.1 (by simp [allWaiting])
  | tail h1 hstep ih =>
    cases hstep with
    | acquire k hk hw hfree =>
      intro i j hi hj hij hpr hij2
      obtain ⟨hci, hcj⟩ := hij2
      by_cases hik : i = k
      · subst hik
        have hjk : j ≠ i := Ne.symm hij
        rw [Function.update_apply, if_neg hjk] at hcj
        exact hfree j hj hpr.symm hcj
      · by_cases hjk : j = k
        · subst hjk
          rw [Function.update_apply, if_neg hik] at hci
          exact hfree i hi hpr hci
        · rw [Function.update_apply, if_neg hik] at hci
          rw [Function.update_apply, if_neg hjk] at hcj
          exact ih i j hi hj hij hpr ⟨hci, hcj⟩
    | finish k hk hr =>
      intro i j hi hj hij hpr hij2
      obtain ⟨hci, hcj⟩ := hij2
      by_cases hik : i = k
      · subst hik
        rw [Function.update_apply, if_pos rfl] at hci
        cases hci
      · by_cases hjk : j = k
        · subst hjk
          rw [Function.update_apply, if_pos rfl] at hcj
          cases hcj
        · rw [Function.update_apply, if_neg hik] at hci
          rw [Function.update_apply, if_neg hjk] at hcj
          exact ih i j hi hj hij hpr ⟨hci, hcj⟩

/-- Progress: while some task is unfinished, some scheduling step is
enabled (a running task can finish; with nothing running every lock is
free, so a waiting task can start). -/
theorem parProgressAux (n : Nat) (prof : Nat → List Char) (s : Nat → TStat)
    (h : ∃ i, i < n ∧ s i ≠ TStat.done) : ∃ s', ParStep n prof s s' := by
  obtain ⟨i, hi, hnd⟩ := h
  by_cases hrun : ∃ j, j < n ∧ s j = TStat.running
  · obtain ⟨j, hj, hr⟩ := hrun
    exact ⟨_, ParStep.finish s j hj hr⟩
  · push_neg at hrun
    cases hst : s i with
    | waiting => exact ⟨_, ParStep.acquire s i hi hst (fun j hj _ => hrun j hj)⟩
    | running => exact absurd hst (hrun i hi)
    | done => exact absurd hst hnd

/-- Every scheduling step strictly decreases the remaining work, so no
run goes on forever: with progress, every maximal schedule ends with
all tasks done. -/
theorem parMeasureAux (n : Nat) (prof : Nat → List Char) (s s' : Nat → TStat)
    (h : ParStep n prof s s') : parMeasure n s' < parMeasure n s := by
  cases h with
  | acquire i hi hw hfree =>
    have hmem : i ∈ Finset.range n := Finset.mem_range.mpr hi
    unfold parMeasure
    rw [show (fun j => tWork (Function.update s i TStat.running j))
        = Function.update (fun j => tWork (s j)) i (tWork TStat.running) from ?_]
    · rw [Finset.sum_update_of_mem hmem,
        ← Finset.add_sum_erase (Finset.range n) (fun j => tWork (s j)) hmem,
        Finset.sdiff_singleton_eq_erase, hw]
      simp [tWork]
    · funext j
      rw [Function.update_apply, Function.update_apply]
      by_cases hj : j = i
      · simp [hj]
      · simp [hj]
  | finish i hi hr =>
    have hmem : i ∈ Finset.range n := Finset.mem_range.mpr hi
    unfold parMeasure
    rw [show (fun j => tWork (Function.update s i TStat.done j))
        = Function.update (fun j => tWork (s j)) i (tWork TStat.done) from ?_]
    · rw [Finset.sum_update_of_mem hmem,
        ← Finset.add_sum_erase (Finset.range n) (fun j => tWork (s j)) hmem,
        Finset.sdiff_singleton_eq_erase, hr]
      simp [tWork]
    · funext j
      rw [Function.update_apply, Function.update_apply]
      by_cases hj : j = i
      · simp [hj]
      · simp [hj]

/-- C4: parallel ForEach.  The launch loop schedules one task per
iteration up front and assigns iteration k (0-based; the claim's i-1
for 1-based i) the profile at index k mod P.  In the cooperative
interleaving of those tasks under the per-profile locks, no reachable
configuration has two distinct iterations of the same profile inside
their bodies at once; while any iteration is unfinished a step is
enabled, and every step strictly decreases the remaining work, so
every maximal schedule completes all N iterations. -/
theorem foreach_parallel_profile_bound (profiles : List (List Char)) (n : Nat)
    (hP : profiles ≠ []) :
    (assignProfiles profiles 0 n
        = (List.range n).map
            (fun k => (profiles[k % profiles.length]?).getD [])) ∧
    (∀ (prof : Nat → List Char) (s : Nat → TStat),
        Relation.ReflTransGen (ParStep n prof) allWaiting s →
        ∀ i j, i < n → j < n → i ≠ j → prof i = prof j →
          ¬(s i = TStat.running ∧ s j = TStat.running)) ∧
    (∀ (prof : Nat → List Char) (s : Nat → TStat),
        (∃ i, i < n ∧ s i ≠ TStat.done) → ∃ s', ParStep n prof s s') ∧
    (∀ (prof : Nat → List Char) (s s' : Nat → TStat),
        ParStep n prof s s' → parMeasure n s' < parMeasure n s) := by
  refine ⟨?_, parMutexAux n, parProgressAux n, parMeasureAux n⟩
  have h0 : 0 < profiles.length := List.length_pos.mpr hP
  rw [assignProfilesAux profiles n 0 h0]
  simp

/-- Evaluation of the C4 theorem: four iterations over two profiles are
assigned round robin. -/
theorem foreach_parallel_profile_bound_ev :
    assignProfiles [['p'], ['q']] 0 4 = [['p'], ['q'], ['p'], ['q']] := by
  have h := (foreach_parallel_profile_bound [['p'], ['q']] 4 (by simp)).1
  rw [h]
  decide

/-! ## Serialization round trip -/

theorem digitChar_isDigit {n : Nat} (h : n < 10) : (Nat.digitChar n).isDigit = true := by
  interval_cases n <;> rfl

theorem digitChar_val {n : Nat} (h : n < 10) : (Nat.digitChar n).toNat - 48 = n := by
  interval_cases n <;> rfl

theorem hexVal_digitChar {n : Nat} (h : n < 16) : hexVal (Nat.digitChar n) = some n := by
  interval_cases n <;> rfl

theorem digitsVal_append (ds : List Char) (c : Char) :
    digitsVal (ds ++ [c]) = 10 * digitsVal ds + (c.toNat - 48) := by
  unfold digitsVal
  rw [List.foldl_append]
  rfl

theorem span_all (p : Char → Bool) :
    ∀ (ds rest : List Char), (∀ c ∈ ds, p c = true) →
      (∀ c, rest.head? = some c → p c = false) →
      (ds ++ rest).takeWhile p = ds ∧ (ds ++ rest).dropWhile p = rest := by
  intro ds
  induction ds with
  | nil =>
    intro rest _ hr
    cases rest with
    | nil => exact ⟨rfl, rfl⟩
    | cons c cs =>
      have hc := hr c rfl
      exact ⟨by simp [List.takeWhile_cons, hc], by simp [List.dropWhile_cons, hc]⟩
  | cons d ds ih =>
    intro rest hds hr
    have hd := hds d (List.mem_cons_self d ds)
    have ih2 := ih rest (fun c hc => hds c (List.mem_cons_of_mem d hc)) hr
    exact ⟨by simp [List.takeWhile_cons, hd, ih2.1],
      by simp [List.dropWhile_cons, hd, ih2.2]⟩

theorem natDigsGo_spec : ∀ f n : Nat, n < f →
    (∀ c ∈ natDigsGo f n, c.isDigit = true) ∧ natDigsGo f n ≠ [] ∧
      digitsVal (natDigsGo f n) = n := by
  intro f
  induction f using Nat.strong_induction_on with
  | _ f ih =>
    intro n hn
    cases f with
    | zero => omega
    | succ f' =>
      by_cases h10 : n < 10
      · simp only [natDigsGo, if_pos h10]
        refine ⟨?_, by simp, ?_⟩
        · intro c hc
          rw [List.mem_singleton.mp hc]
          exact digitChar_isDigit h10
        · show digitsVal ([] ++ [Nat.digitChar n]) = n
          rw [digitsVal_append]
          have := digitChar_val h10
          simp [digitsVal]
          omega
      · have hpos : 0 < n := by omega
        have hdiv : n / 10 < n := Nat.div_lt_self hpos (by omega)
        have hn10 : n / 10 < f' := by omega
        obtain ⟨hall, _, hval⟩ := ih f' (by omega) (n / 10) hn10
        simp only [natDigsGo, if_neg h10]
        refine ⟨?_, by simp, ?_⟩
        · intro c hc
          rcases List.mem_append.mp hc with h1 | h2
          · exact hall c h1
          · rw [List.mem_singleton.mp h2]
            exact digitChar_isDigit (Nat.mod_lt n (by omega))
        · rw [digitsVal_append, hval, digitChar_val (Nat.mod_lt n (by omega))]
          omega

theorem natDigs_spec (n : Nat) :
    (∀ c ∈ natDigs n, c.isDigit = true) ∧ natDigs n ≠ [] ∧
      digitsVal (natDigs n) = n :=
  natDigsGo_spec (n + 1) n (Nat.lt_succ_self n)

/-- Every serialized value is nonempty and starts with a character that
is not a closing bracket (match-arm selection for array elements). -/
theorem dumps_head_ne_rbrack (v : Json) :
    ∃ c cs, dumps v = c :: cs ∧ ¬(c = ']') := by
  cases v with
  | null => exact ⟨'n', _, rfl, by decide⟩
  | bool b => cases b with
    | true => exact ⟨'t', _, rfl, by decide⟩
    | false => exact ⟨'f', _, rfl, by decide⟩
  | num n =>
    cases n with
    | ofNat m =>
      obtain ⟨hall, hne, _⟩ := natDigs_spec m
      obtain ⟨c, cs, hc⟩ := List.exists_cons_of_ne_nil hne
      refine ⟨c, cs, by simp [dumps, intDigs, hc], ?_⟩
      have := hall c (by rw [hc]; exact List.mem_cons_self c cs)
      intro h
      rw [h] at this
      simp [Char.isDigit] at this
    | negSucc m => exact ⟨'-', _, rfl, by decide⟩
  | str s => exact ⟨'"', _, rfl, by decide⟩
  | arr xs => cases xs with
    | nil => exact ⟨'[', _, rfl, by decide⟩
    | cons x xs => exact ⟨'[', _, rfl, by decide⟩
  | obj kvs => cases kvs with
    | nil => exact ⟨'{', _, rfl, by decide⟩
    | cons kv kvs =>
      obtain ⟨k, v⟩ := kv
      exact ⟨'{', _, rfl, by decide⟩

theorem dumps_length_pos (v : Json) : 1 ≤ (dumps v).length := by
  obtain ⟨c, cs, hc, _⟩ := dumps_head_ne_rbrack v
  rw [hc]
  simp

theorem dumpsTail_length_pos (xs : List Json) : 1 ≤ (dumpsTail xs).length := by
  cases xs <;> simp [dumpsTail]

theorem dumpsObjTail_length_pos (kvs : List (List Char × Json)) :
    1 ≤ (dumpsObjTail kvs).length := by
  cases kvs with
  | nil => simp [dumpsObjTail]
  | cons kv kvs =>
    obtain ⟨k, v⟩ := kv
    simp [dumpsObjTail]

theorem delimOk_dumpsTail (xs : List Json) (rest : List Char) :
    delimOkP (dumpsTail xs ++ rest) := by
  cases xs with
  | nil => exact rfl
  | cons x xs => exact rfl

theorem delimOk_dumpsObjTail (kvs : List (List Char × Json)) (rest : List Char) :
    delimOkP (dumpsObjTail kvs ++ rest) := by
  cases kvs with
  | nil => exact rfl
  | cons kv kvs =>
    obtain ⟨k, v⟩ := kv
    exact rfl

/-- json.loads inverts the string escaping of json.dumps. -/
theorem parseStrBody_escape : ∀ (s rest : List Char),
    parseStrBody (escapeStr s ++ ('"' :: rest)) = some (s, rest) := by
  intro s
  induction s with
  | nil => intro rest; rfl
  | cons c s ih =>
    intro rest
    have hesc : escapeStr (c :: s) ++ ('"' :: rest)
        = escapeChar c ++ (escapeStr s ++ ('"' :: rest)) := by
      simp [escapeStr, List.append_assoc]
    rw [hesc]
    by_cases h1 : c = '"'
    · subst h1
      show parseStrBody ('\\' :: '"' :: (escapeStr s ++ ('"' :: rest))) = _
      rw [show parseStrBody ('\\' :: '"' :: (escapeStr s ++ ('"' :: rest)))
          = (match parseStrBody (escapeStr s ++ ('"' :: rest)) with
             | some (s2, r2) => some ('"' :: s2, r2)
             | none => none) from rfl, ih]
    · by_cases h2 : c = '\\'
      · subst h2
        show parseStrBody ('\\' :: '\\' :: (escapeStr s ++ ('"' :: rest))) = _
        rw [show parseStrBody ('\\' :: '\\' :: (escapeStr s ++ ('"' :: rest)))
            = (match parseStrBody (escapeStr s ++ ('"' :: rest)) with
               | some (s2, r2) => some ('\\' :: s2, r2)
               | none => none) from rfl, ih]
      · by_cases h3 : c = '\n'
        · subst h3
          show parseStrBody ('\\' :: 'n' :: (escapeStr s ++ ('"' :: rest))) = _
          rw [show parseStrBody ('\\' :: 'n' :: (escapeStr s ++ ('"' :: rest)))
              = (match parseStrBody (escapeStr s ++ ('"' :: rest)) with
                 | some (s2, r2) => some ('\n' :: s2, r2)
                 | none => none) from rfl, ih]
        · by_cases h4 : c = '\t'
          · subst h4
            show parseStrBody ('\\' :: 't' :: (escapeStr s ++ ('"' :: rest))) = _
            rw [show parseStrBody ('\\' :: 't' :: (escapeStr s ++ ('"' :: rest)))
                = (match parseStrBody (escapeStr s ++ ('"' :: rest)) with
                   | some (s2, r2) => some ('\t' :: s2, r2)
                   | none => none) from rfl, ih]
          · by_cases h5 : c = '\r'
            · subst h5
              show parseStrBody ('\\' :: 'r' :: (escapeStr s ++ ('"' :: rest))) = _
              rw [show parseStrBody ('\\' :: 'r' :: (escapeStr s ++ ('"' :: rest)))
                  = (match parseStrBody (escapeStr s ++ ('"' :: rest)) with
                     | some (s2, r2) => some ('\r' :: s2, r2)
                     | none => none) from rfl, ih]
            · by_cases h6 : c.toNat = 8
              · have hc8 : c = Char.ofNat 8 := by
                  rw [← h6, Char.ofNat_toNat]
                rw [show escapeChar c = ['\\', 'b'] from by
                  simp [escapeChar, h1, h2, h3, h4, h5, h6]]
                show parseStrBody ('\\' :: 'b' :: (escapeStr s ++ ('"' :: rest))) = _
                rw [show parseStrBody ('\\' :: 'b' :: (escapeStr s ++ ('"' :: rest)))
                    = (match parseStrBody (escapeStr s ++ ('"' :: rest)) with
                       | some (s2, r2) => some (Char.ofNat 8 :: s2, r2)
                       | none => none) from rfl, ih, hc8]
              · by_cases h7 : c.toNat = 12
                · have hc12 : c = Char.ofNat 12 := by
                    rw [← h7, Char.ofNat_toNat]
                  rw [show escapeChar c = ['\\', 'f'] from by
                    simp [escapeChar, h1, h2, h3, h4, h5, h6, h7]]
                  show parseStrBody ('\\' :: 'f' :: (escapeStr s ++ ('"' :: rest))) = _
                  rw [show parseStrBody ('\\' :: 'f' :: (escapeStr s ++ ('"' :: rest)))
                      = (match parseStrBody (escapeStr s ++ ('"' :: rest)) with
                         | some (s2, r2) => some (Char.ofNat 12 :: s2, r2)
                         | none => none) from rfl, ih, hc12]
                · by_cases h8 : c.toNat < 32
                  · rw [show escapeChar c
                        = ['\\', 'u', '0', '0', Nat.digitChar (c.toNat / 16),
                            Nat.digitChar (c.toNat % 16)] from by
                      simp [escapeChar, h1, h2, h3, h4, h5, h6, h7, h8]]
                    have hd1 : hexVal (Nat.digitChar (c.toNat / 16))
                        = some (c.toNat / 16) := hexVal_digitChar (by omega)
                    have hd0 : hexVal (Nat.digitChar (c.toNat % 16))
                        = some (c.toNat % 16) := hexVal_digitChar (Nat.mod_lt _ (by omega))
                    have h00 : hexVal '0' = some 0 := rfl
                    show parseStrBody ('\\' :: 'u' :: '0' :: '0'
                        :: Nat.digitChar (c.toNat / 16) :: Nat.digitChar (c.toNat % 16)
                        :: (escapeStr s ++ ('"' :: rest))) = _
                    simp only [parseStrBody, h00, hd1, hd0, ih]
                    have harith : ((((0 : Nat) * 16 + 0) * 16 + c.toNat / 16) * 16
                        + c.toNat % 16) = c.toNat := by omega
                    rw [harith, Char.ofNat_toNat]
                  · rw [show escapeChar c = [c] from by
                      simp [escapeChar, h1, h2, h3, h4, h5, h6, h7, h8]]
                    show parseStrBody (c :: (escapeStr s ++ ('"' :: rest))) = _
                    rw [parseStrBody.eq_def]
                    split <;> first
                      | (rename_i heq
                         rw [List.cons.injEq] at heq
                         obtain ⟨ha, hb⟩ := heq
                         subst ha
                         subst hb
                         rw [if_neg (by omega), ih])
                      | simp_all

/-- A digit at the head selects the number arm of the parser. -/
theorem parseJ_digit_start (f : Nat) (c : Char) (hc : c.isDigit = true) (r : List Char) :
    parseJ (f + 1) (c :: r)
      = some (Json.num (digitsVal ((c :: r).takeWhile Char.isDigit)),
          (c :: r).dropWhile Char.isDigit) := by
  simp only [parseJ]
  split <;> first
    | (rename_i h; obtain ⟨h1, h2⟩ := h; subst h1 h2; simp_all)
    | simp_all

/-- Selecting the array-element arm of the parser when the next
character is not the immediate closing bracket. -/
theorem parseJ_lbrack_bind (f : Nat) (c : Char) (hc : ¬(c = ']')) (w : List Char) :
    parseJ (f + 1) ('[' :: c :: w)
      = (parseJ f (c :: w)).bind (fun p =>
          (parseElems f p.2).bind (fun q => some (Json.arr (p.1 :: q.1), q.2))) := by
  simp only [parseJ]
  split <;> first
    | (rename_i heq
       simp at heq
       done)
    | (rename_i heq
       rw [List.cons.injEq, List.cons.injEq] at heq
       exact absurd heq.2.1 hc)
    | (rename_i heq
       rw [List.cons.injEq] at heq
       obtain ⟨h1, hb⟩ := heq
       exact absurd h1.symm (by assumption))
    | (rename_i heq
       rw [List.cons.injEq] at heq
       obtain ⟨h1, hb⟩ := heq
       subst hb
       split
       · rename_i x r1 hps
         rw [hps]
         simp only [Option.some_bind]
         split
         · rename_i xs r2 hq
           rw [hq]
           simp only [Option.some_bind]
         · rename_i hq
           rw [hq]
           rfl
       · rename_i hpn
         rw [hpn]
         rfl)

/-- json.loads inverts json.dumps: with fuel at least the serialized
length, parsing the serialization of any value off the front of any
legal context returns exactly that value (and likewise for array and
object continuations). -/
theorem parse_dumps_all : ∀ f : Nat,
    (∀ (v : Json) (rest : List Char), (dumps v).length ≤ f → delimOkP rest →
        parseJ f (dumps v ++ rest) = some (v, rest)) ∧
    (∀ (xs : List Json) (rest : List Char), (dumpsTail xs).length ≤ f → delimOkP rest →
        parseElems f (dumpsTail xs ++ rest) = some (xs, rest)) ∧
    (∀ (kvs : List (List Char × Json)) (rest : List Char),
        (dumpsObjTail kvs).length ≤ f → delimOkP rest →
        parseMembers f (dumpsObjTail kvs ++ rest) = some (kvs, rest)) := by
  intro f
  induction f with
  | zero =>
    refine ⟨?_, ?_, ?_⟩
    · intro v rest hlen _
      have := dumps_length_pos v
      omega
    · intro xs rest hlen _
      have := dumpsTail_length_pos xs
      omega
    · intro kvs rest hlen _
      have := dumpsObjTail_length_pos kvs
      omega
  | succ f ih =>
    obtain ⟨ihV, ihE, ihM⟩ := ih
    have headOk : ∀ rest : List Char, delimOkP rest →
        ∀ c2 : Char, rest.head? = some c2 → c2.isDigit = false := by
      intro rest hrest c2 hc2
      cases rest with
      | nil => cases hc2
      | cons r rs =>
        have : c2 = r := by injection hc2 with h; exact h.symm
        rw [this]
        exact hrest
    refine ⟨?_, ?_, ?_⟩
    · intro v rest hlen hrest
      cases v with
      | null => rfl
      | bool b => cases b with
        | true => rfl
        | false => rfl
      | num n =>
        cases n with
        | ofNat m =>
          obtain ⟨hall, hne, hval⟩ := natDigs_spec m
          obtain ⟨c, cs, hc⟩ := List.exists_cons_of_ne_nil hne
          have hcd : c.isDigit = true :=
            hall c (by rw [hc]; exact List.mem_cons_self c cs)
          have hdm : dumps (Json.num (Int.ofNat m)) = natDigs m := rfl
          have hsp := span_all Char.isDigit (natDigs m) rest hall (headOk rest hrest)
          rw [hdm, hc, List.cons_append,
            parseJ_digit_start f c hcd (cs ++ rest), ← List.cons_append, ← hc,
            hsp.1, hsp.2, hval]
          rfl
        | negSucc m =>
          obtain ⟨hall, hne, hval⟩ := natDigs_spec (m + 1)
          obtain ⟨c, cs, hc⟩ := List.exists_cons_of_ne_nil hne
          have hdm : dumps (Json.num (Int.negSucc m)) = '-' :: natDigs (m + 1) := rfl
          have hsp := span_all Char.isDigit (natDigs (m + 1)) rest hall (headOk rest hrest)
          have hnum : (-(digitsVal (natDigs (m + 1)) : Int)) = Int.negSucc m := by
            rw [hval, Int.negSucc_eq]
            push_cast
            ring
          rw [hdm, List.cons_append]
          simp only [parseJ]
          rw [hsp.1, hsp.2, hc]
          show some (Json.num (-(digitsVal (c :: cs) : Int)), rest)
            = some (Json.num (Int.negSucc m), rest)
          rw [← hc, hnum]
      | str s =>
        have hd : dumps (Json.str s) ++ rest
            = '"' :: (escapeStr s ++ ('"' :: rest)) := by
          simp [dumps, dumpStr, List.append_assoc]
        rw [hd]
        simp only [parseJ]
        rw [parseStrBody_escape]
      | arr xs =>
        cases xs with
        | nil => rfl
        | cons x xs =>
          obtain ⟨c, cs, hx, hcne⟩ := dumps_head_ne_rbrack x
          have hL : (dumps (Json.arr (x :: xs))).length
              = (dumps x).length + (dumpsTail xs).length + 1 := by
            simp [dumps]
          have hpx := dumps_length_pos x
          have hpt := dumpsTail_length_pos xs
          have hlenx : (dumps x).length ≤ f := by omega
          have hlent : (dumpsTail xs).length ≤ f := by omega
          have hd : dumps (Json.arr (x :: xs)) ++ rest
              = '[' :: (c :: (cs ++ (dumpsTail xs ++ rest))) := by
            simp [dumps, hx, List.append_assoc]
          have hcast : c :: (cs ++ (dumpsTail xs ++ rest))
              = dumps x ++ (dumpsTail xs ++ rest) := by
            rw [hx]
            simp
          rw [hd, parseJ_lbrack_bind f c hcne (cs ++ (dumpsTail xs ++ rest)), hcast]
          simp only [ihV x _ hlenx (delimOk_dumpsTail xs rest), Option.some_bind,
            ihE xs rest hlent hrest]
      | obj kvs =>
        cases kvs with
        | nil => rfl
        | cons kv kvs =>
          obtain ⟨k, v⟩ := kv
          have hL : (dumps v).length + (dumpsObjTail kvs).length + 2
              ≤ (dumps (Json.obj ((k, v) :: kvs))).length := by
            simp [dumps, dumpStr]
            omega
          have hlenv : (dumps v).length ≤ f := by omega
          have hlenm : (dumpsObjTail kvs).length ≤ f := by omega
          have hd : dumps (Json.obj ((k, v) :: kvs)) ++ rest
              = '{' :: ('"' :: (escapeStr k
                  ++ ('"' :: (':' :: (dumps v ++ (dumpsObjTail kvs ++ rest)))))) := by
            simp [dumps, dumpStr, List.append_assoc]
          rw [hd]
          simp only [parseJ]
          simp only [parseStrBody_escape k
              (':' :: (dumps v ++ (dumpsObjTail kvs ++ rest))),
            ihV v _ hlenv (delimOk_dumpsObjTail kvs rest),
            ihM kvs rest hlenm hrest]
    · intro xs rest hlen hrest
      cases xs with
      | nil => rfl
      | cons x xs =>
        have hL : (dumpsTail (x :: xs)).length
            = (dumps x).length + (dumpsTail xs).length + 1 := by
          simp [dumpsTail]
        have hpx := dumps_length_pos x
        have hpt := dumpsTail_length_pos xs
        have hlenx : (dumps x).length ≤ f := by omega
        have hlent : (dumpsTail xs).length ≤ f := by omega
        have hd : dumpsTail (x :: xs) ++ rest
            = ',' :: (dumps x ++ (dumpsTail xs ++ rest)) := by
          simp [dumpsTail, List.append_assoc]
        rw [hd]
        simp only [parseElems]
        simp only [ihV x _ hlenx (delimOk_dumpsTail xs rest),
          ihE xs rest hlent hrest]
    · intro kvs rest hlen hrest
      cases kvs with
      | nil => rfl
      | cons kv kvs =>
        obtain ⟨k, v⟩ := kv
        have hL : (dumps v).length + (dumpsObjTail kvs).length + 2
            ≤ (dumpsObjTail ((k, v) :: kvs)).length := by
          simp [dumpsObjTail, dumpStr]
          omega
        have hlenv : (dumps v).length ≤ f := by omega
        have hlenm : (dumpsObjTail kvs).length ≤ f := by omega
        have hd : dumpsObjTail ((k, v) :: kvs) ++ rest
            = ',' :: ('"' :: (escapeStr k
                ++ ('"' :: (':' :: (dumps v ++ (dumpsObjTail kvs ++ rest)))))) := by
          simp [dumpsObjTail, dumpStr, List.append_assoc]
        rw [hd]
        simp only [parseMembers]
        simp only [parseStrBody_escape k
            (':' :: (dumps v ++ (dumpsObjTail kvs ++ rest))),
          ihV v _ hlenv (delimOk_dumpsObjTail kvs rest),
          ihM kvs rest hlenm hrest]

/-- json.loads of json.dumps returns the original value. -/
theorem loads_dumps (v : Json) : loads (dumps v) = some v := by
  have h := (parse_dumps_all ((dumps v).length + 1)).1 v []
    (by omega) (by exact trivial)
  rw [List.append_nil] at h
  unfold loads
  rw [h]

theorem lookupA_insertA_self {α : Type} :
    ∀ (m : List (List Char × α)) (key : List Char) (v : α),
      lookupA (insertA m key v) key = some v := by
  intro m
  induction m with
  | nil => intro key v; simp [insertA, lookupA]
  | cons kv m ih =>
    intro key v
    obtain ⟨k, w⟩ := kv
    by_cases hk : k = key
    · simp [insertA, hk, lookupA]
    · simp only [insertA, if_neg hk, lookupA]
      exact ih key v

theorem restart_disk (d : List (List Char × List Char)) : (restart d).disk = d := rfl

/-- A dotfile key is skipped by the startup load, so the fresh cache
never holds it. -/
theorem restart_lookup_dot (key : List Char) (hdot : headIsDot key = true) :
    ∀ d : List (List Char × List Char), lookupA (restart d).cache key = none := by
  intro d
  induction d with
  | nil => rfl
  | cons kv d ih =>
    obtain ⟨k, c⟩ := kv
    show lookupA (List.filterMap loadEntry ((k, c) :: d)) key = none
    rw [List.filterMap_cons]
    by_cases hk2 : headIsDot k = true
    · rw [show loadEntry (k, c) = none from by simp [loadEntry, hk2]]
      exact ih
    · rw [show loadEntry (k, c) = (loads c).map (fun v => (k, v)) from by
        simp [loadEntry, hk2]]
      cases hl : loads c with
      | none => simp only [Option.map_none']; exact ih
      | some v =>
        simp only [Option.map_some']
        have hk3 : ¬(k = key) := by
          intro h
          rw [h, hdot] at hk2
          exact hk2 rfl
        simp only [lookupA, if_neg hk3]
        exact ih

/-- A freshly written non-dotfile key is found in the cache rebuilt by
the startup load, holding the parse of its file content. -/
theorem restart_lookup_nondot (key content : List Char) (v : Json)
    (hdot : headIsDot key = false) (hl : loads content = some v) :
    ∀ d : List (List Char × List Char),
      lookupA (restart (insertA d key content)).cache key = some v := by
  intro d
  have hload : loadEntry (key, content) = some (key, v) := by
    simp [loadEntry, hdot, hl]
  induction d with
  | nil =>
    show lookupA (List.filterMap loadEntry [(key, content)]) key = some v
    rw [List.filterMap_cons, hload]
    simp [lookupA]
  | cons kv d ih =>
    obtain ⟨k, c⟩ := kv
    by_cases hk : k = key
    · subst hk
      rw [show insertA ((k, c) :: d) k content = (k, content) :: d from by
        simp [insertA]]
      show lookupA (List.filterMap loadEntry ((k, content) :: d)) k = some v
      rw [List.filterMap_cons, hload]
      simp [lookupA]
    · rw [show insertA ((k, c) :: d) key content = (k, c) :: insertA d key content from by
        simp [insertA, hk]]
      show lookupA (List.filterMap loadEntry ((k, c) :: insertA d key content)) key
        = some v
      rw [List.filterMap_cons]
      by_cases hk2 : headIsDot k = true
      · rw [show loadEntry (k, c) = none from by simp [loadEntry, hk2]]
        exact ih
      · rw [show loadEntry (k, c) = (loads c).map (fun v => (k, v)) from by
          simp [loadEntry, hk2]]
        cases hl2 : loads c with
        | none => simp only [Option.map_none']; exact ih
        | some w =>
          simp only [Option.map_some']
          simp only [lookupA, if_neg hk]
          exact ih

/-- Writing a value and re-reading its key after a process restart
yields the original value, whatever the prior store contents. -/
theorem memory_roundtrip_aux (st : CMState) (key : List Char) (v : Json) :
    readValue (restart (addOrUpdateMemoryEntry st key v).disk) key = some v := by
  have hdisk : (addOrUpdateMemoryEntry st key v).disk
      = insertA st.disk key (dumps v) := rfl
  rw [hdisk]
  by_cases hdot : headIsDot key = true
  · simp only [readValue, readMemoryEntry, restart_lookup_dot key hdot,
      restart_disk, lookupA_insertA_self, loads_dumps]
  · have hdot2 : headIsDot key = false := by
      cases h : headIsDot key with
      | true => exact absurd h hdot
      | false => rfl
    simp only [readValue, readMemoryEntry,
      restart_lookup_nondot key (dumps v) v hdot2 (loads_dumps v) st.disk]

/-- C8: memory round trip.  For every JSON-serializable value V, key K
and prior store state, writing V under K, restarting the store (the
fresh cache is reloaded from the one-file-per-key backing directory),
then reading K yields a value structurally equal to V; in particular
the object with field x equal to 1, written under the key foo, is read
back unchanged after the restart. -/
theorem memory_roundtrip_restart (st : CMState) (key : List Char) (v : Json) :
    readValue (restart (addOrUpdateMemoryEntry st key v).disk) key = some v ∧
    readValue (restart (addOrUpdateMemoryEntry ⟨[], []⟩ (strL (r"foo"))
          (Json.obj [(strL (r"x"), Json.num 1)])).disk) (strL (r"foo"))
      = some (Json.obj [(strL (r"x"), Json.num 1)]) :=
  ⟨memory_roundtrip_aux st key v,
    memory_roundtrip_aux ⟨[], []⟩ (strL (r"foo")) (Json.obj [(strL (r"x"), Json.num 1)])⟩

/-- The one-reference prompt built over a brace-free nonempty key
scans to exactly that variable. -/
theorem findVars_varRef (key : List Char) (h1 : key ≠ []) (h2 : '}' ∉ key) :
    findVars (varRef key) = [key] := by
  have hall : ∀ c ∈ key, (fun c => decide ¬(c = '}')) c = true := by
    intro c hc
    simp only [decide_eq_true_eq]
    intro h
    rw [h] at hc
    exact h2 hc
  have hhead : ∀ c : Char, (['}'] : List Char).head? = some c →
      (fun c => decide ¬(c = '}')) c = false := by
    intro c hc
    have : c = '}' := by injection hc with h; exact h.symm
    rw [this]
    simp
  have hsp := span_all (fun c => decide ¬(c = '}')) key ['}'] hall hhead
  show findVarsF ((varRef key).length) (varRef key) = [key]
  have hlen : (varRef key).length = (key.length + 2) + 1 := by
    simp [varRef]
  rw [hlen]
  show findVarsF ((key.length + 2) + 1) ('$' :: '{' :: (key ++ ['}'])) = [key]
  have hnil : ∀ f : Nat, findVarsF f [] = [] := by
    intro f
    cases f <;> rfl
  simp only [findVarsF, hsp.1, hsp.2, h1, hnil, if_false]

/-- C10: the absent sentinel is an in-band value.  After writing the
exact sentinel string as a key's value, a read returns the sentinel
string — precisely what a read of a never-written key returns — the
memory-return post-processing maps it to Python None, and interpolating
a reference to the key leaves the literal reference unchanged and logs
the missing-value warning, exactly as for an absent key. -/
theorem sentinel_in_band (st st2 : CMState) (key : List Char)
    (h2c : lookupA st2.cache key = none) (h2d : lookupA st2.disk key = none)
    (hk1 : key ≠ []) (hk2 : '}' ∉ key) :
    readValue (addOrUpdateMemoryEntry st key (Json.str noEntry)) key
        = some (Json.str noEntry) ∧
    readValue st2 key = some (Json.str noEntry) ∧
    processContextMemoryReturnValue (wrapResult (Json.str noEntry)) = none ∧
    (replaceContextVariables (varRef key) []
        (mcpRead (addOrUpdateMemoryEntry st key (Json.str noEntry)))).prompt
      = varRef key ∧
    key ∈ (replaceContextVariables (varRef key) []
        (mcpRead (addOrUpdateMemoryEntry st key (Json.str noEntry)))).warns := by
  have hread : readMemoryEntry (addOrUpdateMemoryEntry st key (Json.str noEntry)) key
      = some (Json.str noEntry, addOrUpdateMemoryEntry st key (Json.str noEntry)) := by
    simp only [readMemoryEntry, addOrUpdateMemoryEntry, lookupA_insertA_self]
  have hmcp : mcpRead (addOrUpdateMemoryEntry st key (Json.str noEntry)) key
      = Except.ok [some noEntry] := by
    simp [mcpRead, hread, wrapResult]
  have hinterp : replaceContextVariables (varRef key) []
        (mcpRead (addOrUpdateMemoryEntry st key (Json.str noEntry)))
      = ⟨varRef key, [key], [key], []⟩ := by
    unfold replaceContextVariables
    rw [findVars_varRef key hk1 hk2, List.foldl_cons, List.foldl_nil]
    simp [processVar, lookupA, hmcp, goodContent]
  refine ⟨?_, ?_, ?_, ?_, ?_⟩
  · simp [readValue, hread]
  · simp [readValue, readMemoryEntry, h2c, h2d]
  · rfl
  · rw [hinterp]
  · rw [hinterp]
    exact List.mem_singleton.mpr rfl

/-- Evaluation of the C10 theorem at a concrete key and empty stores. -/
theorem sentinel_in_band_ev :
    readValue (addOrUpdateMemoryEntry ⟨[], []⟩ ['k'] (Json.str noEntry)) ['k']
      = some (Json.str noEntry) :=
  (sentinel_in_band ⟨[], []⟩ ⟨[], []⟩ ['k'] rfl rfl (by simp) (by decide)).1

end BugRepro
